import Mathlib

/-!
Verification of the compact-id-map crate (src/compact_id_map.rs).

The file shallowly embeds the two data structures of the crate:

* CompactIdBiMap: a bidirectional key-to-id map whose id type is usize.
  The two hashbrown HashMaps are modelled as association lists (at most one
  entry per key in every well-formed state); the recycle-bin Vec is modelled
  as a list whose HEAD is the END of the Vec, so Vec::push is cons and
  Vec::pop takes the head.  The usize counter increment next_new_id += 1 is
  modelled with release-build semantics, i.e. wrapping arithmetic modulo
  2 ^ 64 on a 64-bit platform.

* CompactIdMap: the unidirectional map over a generic id type I that
  supplies a possibly failing successor (the increment crate's trait).
  Calling Option::unwrap on a failed increment aborts the process in Rust;
  the abort is modelled by the operation returning none.
-/

namespace CompactIds

/-- Association-list model of hashbrown::HashMap lookup: the value of the
first entry holding the requested key, if any. -/
def lookupA {α β : Type} [DecidableEq α] : List (α × β) → α → Option β
  | [], _ => none
  | (a, b) :: t, x => if a = x then some b else lookupA t x

/-- Association-list model of hashbrown::HashMap removal of a key: drops
every entry holding that key (well-formed states hold at most one). -/
def eraseA {α β : Type} [DecidableEq α] : List (α × β) → α → List (α × β)
  | [], _ => []
  | (a, b) :: t, x => if a = x then eraseA t x else (a, b) :: eraseA t x

/-- Association-list model of hashbrown::HashMap insertion: the fresh entry
replaces any existing entry holding the same key. -/
def insertA {α β : Type} [DecidableEq α] (m : List (α × β)) (k : α) (v : β) :
    List (α × β) :=
  (k, v) :: eraseA m k

/-- Keys of an association list, in order. -/
def keysOf {α β : Type} (m : List (α × β)) : List α := m.map Prod.fst

/-- An association list is well-formed when no key occurs twice. -/
def nodupKeys {α β : Type} (m : List (α × β)) : Prop := (keysOf m).Nodup

/-- Number of values representable by usize on a 64-bit platform. -/
def usizeSize : Nat := 2 ^ 64

/-- State of CompactIdBiMap of src/compact_id_map.rs: forward map ids
(key to id), backward map keys (id to key), the recycle_bin stack (list head
models the end of the Vec, where push and pop act), and the next_new_id
counter of type usize, modelled as a Nat kept below 2 ^ 64 by the wrapping
increment. -/
structure CompactIdBiMap (K : Type) where
  ids : List (K × Nat)
  keys : List (Nat × K)
  recycle_bin : List Nat
  next_new_id : Nat
deriving DecidableEq

variable {K : Type}

/-- CompactIdBiMap::new. -/
def CompactIdBiMap.new : CompactIdBiMap K :=
  { ids := [], keys := [], recycle_bin := [], next_new_id := 0 }

/-- CompactIdBiMap::get: lookup in the forward map. -/
def CompactIdBiMap.get [DecidableEq K] (s : CompactIdBiMap K) (k : K) : Option Nat :=
  lookupA s.ids k

/-- CompactIdBiMap::get_key: lookup in the backward map. -/
def CompactIdBiMap.get_key (s : CompactIdBiMap K) (i : Nat) : Option K :=
  lookupA s.keys i

/-- CompactIdBiMap::get_fresh_id.  If the recycle bin is empty, return
next_new_id and bump the counter (usize release-build wrapping addition,
hence the reduction modulo 2 ^ 64); otherwise pop the most recently pushed
bin entry (the head of the modelled stack) and return it. -/
def CompactIdBiMap.get_fresh_id (s : CompactIdBiMap K) : Nat × CompactIdBiMap K :=
  match s.recycle_bin with
  | [] => (s.next_new_id, { s with next_new_id := (s.next_new_id + 1) % usizeSize })
  | i :: rest => (i, { s with recycle_bin := rest })

/-- CompactIdBiMap::insert: draw a fresh id and record the association in
both directions.  The debug_assert that the key is absent vanishes in a
release build, so the model performs no check. -/
def CompactIdBiMap.insert [DecidableEq K] (s : CompactIdBiMap K) (k : K) :
    Nat × CompactIdBiMap K :=
  let p := s.get_fresh_id
  (p.1, { p.2 with ids := insertA p.2.ids k p.1, keys := insertA p.2.keys p.1 k })

/-- CompactIdBiMap::get_or_insert: return the existing id if present,
otherwise insert. -/
def CompactIdBiMap.get_or_insert [DecidableEq K] (s : CompactIdBiMap K) (k : K) :
    Nat × CompactIdBiMap K :=
  match s.get k with
  | some i => (i, s)
  | none => s.insert k

/-- CompactIdBiMap::remove: drop the forward entry of the key; when one was
present, push its id onto the recycle bin and drop the backward entry. -/
def CompactIdBiMap.remove [DecidableEq K] (s : CompactIdBiMap K) (k : K) :
    Option Nat × CompactIdBiMap K :=
  match lookupA s.ids k with
  | none => (none, s)
  | some i =>
    (some i, { ids := eraseA s.ids k, keys := eraseA s.keys i,
               recycle_bin := i :: s.recycle_bin, next_new_id := s.next_new_id })

/-- CompactIdBiMap::remove_id: drop the backward entry of the id; when one
was present, push the id onto the recycle bin and drop the forward entry. -/
def CompactIdBiMap.remove_id [DecidableEq K] (s : CompactIdBiMap K) (i : Nat) :
    Option K × CompactIdBiMap K :=
  match lookupA s.keys i with
  | none => (none, s)
  | some k =>
    (some k, { ids := eraseA s.ids k, keys := eraseA s.keys i,
               recycle_bin := i :: s.recycle_bin, next_new_id := s.next_new_id })

/-- The increment crate's trait: a possibly failing successor operation. -/
class Incrementable (I : Type) where
  increment : I → Option I

/-- State of the generic unidirectional CompactIdMap of src/compact_id_map.rs:
the store keys (id to value), the recycle_bin stack (list head models the end
of the Vec) and the next_new_id counter of the generic id type. -/
structure CompactIdMap (I : Type) (K : Type) where
  keys : List (I × K)
  recycle_bin : List I
  next_new_id : I
deriving DecidableEq

variable {I V : Type}

/-- CompactIdMap::new: next_new_id starts at the id type's Default value. -/
def CompactIdMap.new [Inhabited I] : CompactIdMap I V :=
  { keys := [], recycle_bin := [], next_new_id := default }

/-- CompactIdMap::get. -/
def CompactIdMap.get [DecidableEq I] (s : CompactIdMap I V) (i : I) : Option V :=
  lookupA s.keys i

/-- CompactIdMap::fresh_id.  If the recycle bin is empty, return next_new_id
and replace it by increment's result, where the source calls Option::unwrap:
a failed increment aborts the process, modelled by returning none.
Otherwise pop the most recently pushed bin entry. -/
def CompactIdMap.fresh_id [DecidableEq I] [Incrementable I] (s : CompactIdMap I V) :
    Option (I × CompactIdMap I V) :=
  match s.recycle_bin with
  | [] =>
    match Incrementable.increment s.next_new_id with
    | none => none
    | some t => some (s.next_new_id, { s with next_new_id := t })
  | i :: rest => some (i, { s with recycle_bin := rest })

/-- CompactIdMap::insert: draw a fresh id and store the value under it;
propagates the modelled abort of fresh_id. -/
def CompactIdMap.insert [DecidableEq I] [Incrementable I] (s : CompactIdMap I V)
    (v : V) : Option (I × CompactIdMap I V) :=
  match s.fresh_id with
  | none => none
  | some (i, s1) => some (i, { s1 with keys := insertA s1.keys i v })

/-- CompactIdMap::remove_id: drop the entry of the id; when one was present,
push the id onto the recycle bin and return the stored value. -/
def CompactIdMap.remove_id [DecidableEq I] (s : CompactIdMap I V) (i : I) :
    Option V × CompactIdMap I V :=
  match lookupA s.keys i with
  | none => (none, s)
  | some v =>
    (some v, { s with keys := eraseA s.keys i, recycle_bin := i :: s.recycle_bin })

/-- A bounded id type instantiating the capability contract of the generic
map the way u8 does: increment fails at the maximum value 255. -/
structure U8 where
  val : Nat
deriving DecidableEq

instance : Incrementable U8 :=
  ⟨fun x => if x.val + 1 ≤ 255 then some ⟨x.val + 1⟩ else none⟩

instance : Inhabited U8 := ⟨⟨0⟩⟩

/-- Run of consecutive CompactIdBiMap::insert calls: the list of returned
ids, in call order, together with the final state. -/
def CompactIdBiMap.insertMany [DecidableEq K] (s : CompactIdBiMap K) :
    List K → List Nat × CompactIdBiMap K
  | [] => ([], s)
  | k :: ks =>
    let p := s.insert k
    let q := p.2.insertMany ks
    (p.1 :: q.1, q.2)

/-- State of the bidirectional map over Nat keys after n insertions of the
pairwise distinct keys 0, 1, ..., n-1 into the empty map. -/
def insertN : Nat → CompactIdBiMap Nat
  | 0 => CompactIdBiMap.new
  | n + 1 => ((insertN n).insert n).2

/-- Ids returned by the n allocations of insertN, most recent first: the
counter values 0, 1, 2, ... reduced modulo 2 ^ 64 by the wrapping usize
increment. -/
def returnedIds (n : Nat) : List Nat :=
  ((List.range n).map (fun i => i % usizeSize)).reverse

/-- Reachability of a bidirectional-map state from the empty map by the
public mutating operations, instrumented with two ghost observations: a
counts the allocations served from the next_new_id counter (the counter has
wrapped exactly when a reached 2 ^ 64) and R lists every id returned by an
allocation, most recent first.  The insert constructor carries insert's
documented precondition that the key is absent; get_or_insert needs no
constructor of its own because on a present key it returns the state
unchanged and on an absent key it equals insert. -/
inductive Reach {K : Type} [DecidableEq K] :
    CompactIdBiMap K → Nat → List Nat → Prop where
  | empty : Reach CompactIdBiMap.new 0 []
  | insert (s : CompactIdBiMap K) (a : Nat) (R : List Nat) (k : K) :
      Reach s a R → lookupA s.ids k = none →
      Reach (s.insert k).2 (a + if s.recycle_bin = [] then 1 else 0)
        ((s.insert k).1 :: R)
  | remove (s : CompactIdBiMap K) (a : Nat) (R : List Nat) (k : K) :
      Reach s a R → Reach (s.remove k).2 a R
  | remove_id (s : CompactIdBiMap K) (a : Nat) (R : List Nat) (i : Nat) :
      Reach s a R → Reach (s.remove_id i).2 a R

/-- Well-formedness of a reachable bidirectional-map state that has served a
allocations from the counter, returning the ids listed in R, as long as
the counter wrapped at most once, i.e. a is at most 2 ^ 64 (next_new_id is
a reduced modulo 2 ^ 64): the two directions are exact inverses with equal
cardinality and no key or id occurring twice, the recycle bin holds no live
id and no duplicates, and every recycle-bin id, live id and ever-returned id
is below next_new_id = a. -/
structure Wf {K : Type} [DecidableEq K] (s : CompactIdBiMap K) (a : Nat)
    (R : List Nat) : Prop where
  next_eq : s.next_new_id = a % usizeSize
  ids_nodup : nodupKeys s.ids
  keys_nodup : nodupKeys s.keys
  bin_nodup : s.recycle_bin.Nodup
  bij : ∀ (k : K) (i : Nat), lookupA s.ids k = some i ↔ lookupA s.keys i = some k
  len_eq : s.ids.length = s.keys.length
  bin_not_live : ∀ i ∈ s.recycle_bin, lookupA s.keys i = none
  bin_lt : ∀ i ∈ s.recycle_bin, i < a
  live_lt : ∀ (i : Nat) (k : K), lookupA s.keys i = some k → i < a
  ret_lt : ∀ i ∈ R, i < a

/-- Run of consecutive CompactIdMap::insert calls: the returned ids in call
order and the final state, or none as soon as one call hits the modelled
abort. -/
def CompactIdMap.insertMany [DecidableEq I] [Incrementable I]
    (s : CompactIdMap I V) : List V → Option (List I × CompactIdMap I V)
  | [] => some ([], s)
  | v :: vs =>
    match s.insert v with
    | none => none
    | some (i, s1) =>
      match s1.insertMany vs with
      | none => none
      | some (is, s2) => some (i :: is, s2)

/-- Reachability of a unidirectional-map state from the empty map by the
public mutating operations; the mutate constructor models a caller writing
a value through the reference returned by get_mut. -/
inductive UniReach {I V : Type} [DecidableEq I] [Incrementable I] [Inhabited I] :
    CompactIdMap I V → Prop where
  | empty : UniReach CompactIdMap.new
  | insert (s : CompactIdMap I V) (v : V) (i : I) (s1 : CompactIdMap I V) :
      UniReach s → s.insert v = some (i, s1) → UniReach s1
  | remove_id (s : CompactIdMap I V) (i : I) :
      UniReach s → UniReach (s.remove_id i).2
  | mutate (s : CompactIdMap I V) (i : I) (v w : V) :
      UniReach s → lookupA s.keys i = some w →
      UniReach { s with keys := insertA s.keys i v }

/-- Well-formedness of a unidirectional-map state relative to a rank measure
for the generic id type (the spec requires handles to be totally ordered and
incrementable, so increment is strictly rank-increasing): the recycle bin
has no duplicates and no live id, and every recycle-bin or live id ranks
strictly below next_new_id. -/
structure UniWf {I V : Type} [DecidableEq I] (rank : I → Nat)
    (s : CompactIdMap I V) : Prop where
  bin_nodup : s.recycle_bin.Nodup
  bin_lt : ∀ i ∈ s.recycle_bin, rank i < rank s.next_new_id
  bin_not_live : ∀ i ∈ s.recycle_bin, lookupA s.keys i = none
  live_lt : ∀ (i : I) (v : V), lookupA s.keys i = some v → rank i < rank s.next_new_id

section AssocLemmas

variable {α β : Type} [DecidableEq α]

@[simp]
theorem lookupA_nil (x : α) : lookupA ([] : List (α × β)) x = none := rfl

theorem lookupA_cons (a : α) (b : β) (t : List (α × β)) (x : α) :
    lookupA ((a, b) :: t) x = if a = x then some b else lookupA t x := rfl

@[simp]
theorem lookupA_eraseA_self (m : List (α × β)) (k : α) :
    lookupA (eraseA m k) k = none := by
  induction m with
  | nil => rfl
  | cons p t ih =>
    obtain ⟨a, b⟩ := p
    by_cases h : a = k
    · simpa [eraseA, h] using ih
    · simpa [eraseA, lookupA, h] using ih

theorem lookupA_eraseA_ne (m : List (α × β)) {k x : α} (h : x ≠ k) :
    lookupA (eraseA m k) x = lookupA m x := by
  induction m with
  | nil => rfl
  | cons p t ih =>
    obtain ⟨a, b⟩ := p
    by_cases ha : a = k
    · rw [eraseA, if_pos ha, ih, lookupA_cons,
        if_neg (fun hh => h (by rw [← hh]; exact ha))]
    · simp only [eraseA, if_neg ha, lookupA_cons, ih]

@[simp]
theorem lookupA_insertA_self (m : List (α × β)) (k : α) (v : β) :
    lookupA (insertA m k v) k = some v := by
  simp [insertA, lookupA]

theorem lookupA_insertA_ne (m : List (α × β)) {k x : α} (v : β) (h : x ≠ k) :
    lookupA (insertA m k v) x = lookupA m x := by
  rw [insertA, lookupA_cons, if_neg (fun hh => h hh.symm)]
  exact lookupA_eraseA_ne m h

theorem lookupA_eq_none_iff (m : List (α × β)) (k : α) :
    lookupA m k = none ↔ k ∉ keysOf m := by
  induction m with
  | nil => simp [keysOf]
  | cons p t ih =>
    obtain ⟨a, b⟩ := p
    by_cases h : a = k
    · simp [lookupA_cons, keysOf, h]
    · rw [lookupA_cons, if_neg h, ih]
      simp only [keysOf, List.map_cons, List.mem_cons]
      constructor
      · intro hnm hor
        rcases hor with h1 | h2
        · exact h h1.symm
        · exact hnm h2
      · intro hn hm
        exact hn (Or.inr hm)

theorem eraseA_eq_of_lookupA_none (m : List (α × β)) {k : α}
    (h : lookupA m k = none) : eraseA m k = m := by
  induction m with
  | nil => rfl
  | cons p t ih =>
    obtain ⟨a, b⟩ := p
    by_cases ha : a = k
    · simp [lookupA, ha] at h
    · rw [lookupA_cons, if_neg ha] at h
      simp [eraseA, ha, ih h]

theorem keysOf_eraseA_sublist (m : List (α × β)) (k : α) :
    (keysOf (eraseA m k)).Sublist (keysOf m) := by
  induction m with
  | nil => simp [eraseA]
  | cons p t ih =>
    obtain ⟨a, b⟩ := p
    by_cases ha : a = k
    · simp only [eraseA, if_pos ha, keysOf, List.map_cons]
      exact ih.cons a
    · simp only [eraseA, if_neg ha, keysOf, List.map_cons]
      exact ih.cons₂ a

theorem not_mem_keysOf_eraseA (m : List (α × β)) (k : α) :
    k ∉ keysOf (eraseA m k) := by
  rw [← lookupA_eq_none_iff]
  exact lookupA_eraseA_self m k

theorem nodupKeys_eraseA {m : List (α × β)} (h : nodupKeys m) (k : α) :
    nodupKeys (eraseA m k) :=
  (keysOf_eraseA_sublist m k).nodup h

theorem nodupKeys_insertA {m : List (α × β)} (h : nodupKeys m) (k : α) (v : β) :
    nodupKeys (insertA m k v) := by
  unfold nodupKeys keysOf at h ⊢
  simp only [insertA, List.map_cons, List.nodup_cons]
  exact ⟨not_mem_keysOf_eraseA m k, nodupKeys_eraseA h k⟩

theorem length_eraseA_le (m : List (α × β)) (k : α) :
    (eraseA m k).length ≤ m.length := by
  have h := (keysOf_eraseA_sublist m k).length_le
  simpa [keysOf] using h

theorem length_insertA_of_none (m : List (α × β)) {k : α} (v : β)
    (h : lookupA m k = none) : (insertA m k v).length = m.length + 1 := by
  rw [insertA, eraseA_eq_of_lookupA_none m h, List.length_cons]

theorem length_insertA_le (m : List (α × β)) (k : α) (v : β) :
    (insertA m k v).length ≤ m.length + 1 := by
  rw [insertA, List.length_cons]
  exact Nat.succ_le_succ (length_eraseA_le m k)

theorem length_eraseA_of_some {m : List (α × β)} (hnd : nodupKeys m) {k : α}
    {v : β} (h : lookupA m k = some v) :
    m.length = (eraseA m k).length + 1 := by
  induction m with
  | nil => simp [lookupA] at h
  | cons p t ih =>
    obtain ⟨a, b⟩ := p
    rw [nodupKeys, keysOf, List.map_cons, List.nodup_cons] at hnd
    by_cases ha : a = k
    · subst ha
      have htn : lookupA t a = none := (lookupA_eq_none_iff t a).mpr hnd.1
      simp [eraseA, eraseA_eq_of_lookupA_none t htn]
    · rw [lookupA_cons, if_neg ha] at h
      simp only [eraseA, if_neg ha, List.length_cons]
      exact congrArg Nat.succ (ih hnd.2 h)

end AssocLemmas

section BasicLemmas

variable {K : Type}

@[simp]
theorem get_fresh_id_ids (s : CompactIdBiMap K) : s.get_fresh_id.2.ids = s.ids := by
  rcases h : s.recycle_bin with _ | ⟨i, rest⟩ <;>
    simp [CompactIdBiMap.get_fresh_id, h]

@[simp]
theorem get_fresh_id_keys (s : CompactIdBiMap K) : s.get_fresh_id.2.keys = s.keys := by
  rcases h : s.recycle_bin with _ | ⟨i, rest⟩ <;>
    simp [CompactIdBiMap.get_fresh_id, h]

@[simp]
theorem insert_fst [DecidableEq K] (s : CompactIdBiMap K) (k : K) :
    (s.insert k).1 = s.get_fresh_id.1 := rfl

@[simp]
theorem insert_snd_ids [DecidableEq K] (s : CompactIdBiMap K) (k : K) :
    (s.insert k).2.ids = insertA s.ids k s.get_fresh_id.1 := by
  show insertA s.get_fresh_id.2.ids k s.get_fresh_id.1 = _
  rw [get_fresh_id_ids]

@[simp]
theorem insert_snd_keys [DecidableEq K] (s : CompactIdBiMap K) (k : K) :
    (s.insert k).2.keys = insertA s.keys s.get_fresh_id.1 k := by
  show insertA s.get_fresh_id.2.keys s.get_fresh_id.1 k = _
  rw [get_fresh_id_keys]

@[simp]
theorem insert_snd_recycle_bin [DecidableEq K] (s : CompactIdBiMap K) (k : K) :
    (s.insert k).2.recycle_bin = s.get_fresh_id.2.recycle_bin := rfl

@[simp]
theorem insert_snd_next_new_id [DecidableEq K] (s : CompactIdBiMap K) (k : K) :
    (s.insert k).2.next_new_id = s.get_fresh_id.2.next_new_id := rfl

theorem get_fresh_id_of_empty (s : CompactIdBiMap K) (h : s.recycle_bin = []) :
    s.get_fresh_id =
      (s.next_new_id, { s with next_new_id := (s.next_new_id + 1) % usizeSize }) := by
  simp [CompactIdBiMap.get_fresh_id, h]

theorem get_fresh_id_of_cons (s : CompactIdBiMap K) {i : Nat} {rest : List Nat}
    (h : s.recycle_bin = i :: rest) :
    s.get_fresh_id = (i, { s with recycle_bin := rest }) := by
  simp [CompactIdBiMap.get_fresh_id, h]

end BasicLemmas

/-- C1: for both maps, fresh-id allocation pops and returns the most
recently pushed recycle-bin entry when the bin is non-empty (the head of the
modelled stack), leaving next_new_id and both entry lists untouched;
otherwise it returns the current next_new_id and advances the counter to its
successor — wrapping usize addition for the bidirectional map, the generic
increment operation (when it is defined) for the unidirectional map. -/
theorem c1_fresh_id_algorithm {K I V : Type} [DecidableEq I] [Incrementable I] :
    (∀ s : CompactIdBiMap K,
      (∀ (i : Nat) (rest : List Nat), s.recycle_bin = i :: rest →
        s.get_fresh_id.1 = i ∧
        s.get_fresh_id.2.next_new_id = s.next_new_id ∧
        s.get_fresh_id.2.recycle_bin = rest ∧
        s.get_fresh_id.2.ids = s.ids ∧
        s.get_fresh_id.2.keys = s.keys) ∧
      (s.recycle_bin = [] →
        s.get_fresh_id.1 = s.next_new_id ∧
        s.get_fresh_id.2.next_new_id = (s.next_new_id + 1) % usizeSize ∧
        s.get_fresh_id.2.recycle_bin = [])) ∧
    (∀ s : CompactIdMap I V,
      (∀ (i : I) (rest : List I), s.recycle_bin = i :: rest →
        s.fresh_id = some (i, { s with recycle_bin := rest })) ∧
      (∀ t : I, s.recycle_bin = [] →
        Incrementable.increment s.next_new_id = some t →
        s.fresh_id = some (s.next_new_id, { s with next_new_id := t }))) := by
  constructor
  · intro s
    constructor
    · intro i rest h
      rw [get_fresh_id_of_cons s h]
      simp [h]
    · intro h
      rw [get_fresh_id_of_empty s h]
      simp [h]
  · intro s
    constructor
    · intro i rest h
      simp [CompactIdMap.fresh_id, h]
    · intro t h hinc
      simp [CompactIdMap.fresh_id, h, hinc]

/-- Witness for C1 at concrete states of both maps. -/
theorem c1_fresh_id_algorithm_witness :
    (CompactIdBiMap.get_fresh_id
      { ids := [], keys := [], recycle_bin := [5], next_new_id := 7 } :
        Nat × CompactIdBiMap Nat).1 = 5 ∧
    (CompactIdMap.fresh_id
      { keys := [], recycle_bin := [], next_new_id := ⟨3⟩ } :
        Option (U8 × CompactIdMap U8 Nat)) =
      some (⟨3⟩, { keys := [], recycle_bin := [], next_new_id := ⟨4⟩ }) :=
  ⟨((c1_fresh_id_algorithm (K := Nat) (I := U8) (V := Nat)).1 _ |>.1 5 [] rfl).1,
   (c1_fresh_id_algorithm (K := Nat) (I := U8) (V := Nat)).2 _ |>.2 ⟨4⟩ rfl (by decide)⟩

/-- C3: get_or_insert returns the existing id without any change when the
key is present; when the key is absent it behaves exactly as insert — it
allocates the fresh id and records the association in both directions.
A second call right after the first returns the same id and leaves the state
of the first call unchanged, and the number of stored associations grows by
at most one across the two calls. -/
theorem c3_get_or_insert {K : Type} [DecidableEq K] (s : CompactIdBiMap K) (k : K) :
    (∀ i : Nat, s.get k = some i → s.get_or_insert k = (i, s)) ∧
    (s.get k = none →
      s.get_or_insert k = s.insert k ∧
      (s.get_or_insert k).1 = s.get_fresh_id.1 ∧
      (s.get_or_insert k).2.get k = some (s.get_or_insert k).1 ∧
      (s.get_or_insert k).2.get_key (s.get_or_insert k).1 = some k) ∧
    ((s.get_or_insert k).2.get_or_insert k).1 = (s.get_or_insert k).1 ∧
    ((s.get_or_insert k).2.get_or_insert k).2 = (s.get_or_insert k).2 ∧
    ((s.get_or_insert k).2.get_or_insert k).2.ids.length ≤ s.ids.length + 1 := by
  cases h : s.get k with
  | some i =>
    have he : s.get_or_insert k = (i, s) := by
      simp [CompactIdBiMap.get_or_insert, CompactIdBiMap.get] at h ⊢
      simp [h]
    refine ⟨?_, ?_, ?_, ?_, ?_⟩
    · intro j hj
      cases hj
      exact he
    · intro hn
      exact Option.noConfusion hn
    · rw [he, he]
    · rw [he, he]
    · rw [he, he]
      exact Nat.le_succ _
  | none =>
    have he : s.get_or_insert k = s.insert k := by
      simp [CompactIdBiMap.get_or_insert, CompactIdBiMap.get] at h ⊢
      simp [h]
    have hget : (s.insert k).2.get k = some (s.insert k).1 := by
      simp [CompactIdBiMap.get]
    have hsecond : (s.insert k).2.get_or_insert k = ((s.insert k).1, (s.insert k).2) := by
      simp [CompactIdBiMap.get_or_insert, hget]
    refine ⟨?_, ?_, ?_, ?_, ?_⟩
    · intro j hj
      exact Option.noConfusion hj
    · intro _
      refine ⟨he, ?_, ?_, ?_⟩
      · rw [he]
        rfl
      · rw [he]
        exact hget
      · rw [he]
        simp [CompactIdBiMap.get_key]
    · rw [he, hsecond]
    · rw [he, hsecond]
    · rw [he, hsecond]
      simp only [insert_snd_ids]
      exact length_insertA_le s.ids k s.get_fresh_id.1


/-- Witness for C3: on the empty map, get_or_insert of an absent key equals
insert of that key. -/
theorem c3_get_or_insert_witness :
    (CompactIdBiMap.new : CompactIdBiMap Nat).get_or_insert 4 =
      (CompactIdBiMap.new : CompactIdBiMap Nat).insert 4 :=
  ((c3_get_or_insert (CompactIdBiMap.new : CompactIdBiMap Nat) 4).2.1 rfl).1

/-- C4: remove of a present key returns its id, erases the association in
both directions (afterwards get of the key and get_key of the id are both
absent), pushes the id onto the recycle bin, and leaves next_new_id alone;
remove of an absent key returns none and leaves the whole state unchanged. -/
theorem c4_remove {K : Type} [DecidableEq K] (s : CompactIdBiMap K) (k : K) :
    (∀ i : Nat, s.get k = some i →
      (s.remove k).1 = some i ∧
      (s.remove k).2.get k = none ∧
      (s.remove k).2.get_key i = none ∧
      (s.remove k).2.recycle_bin = i :: s.recycle_bin ∧
      (s.remove k).2.next_new_id = s.next_new_id) ∧
    (s.get k = none → s.remove k = (none, s)) := by
  constructor
  · intro i hi
    rw [CompactIdBiMap.get] at hi
    simp [CompactIdBiMap.remove, hi, CompactIdBiMap.get, CompactIdBiMap.get_key]
  · intro hn
    rw [CompactIdBiMap.get] at hn
    simp [CompactIdBiMap.remove, hn]

/-- Witness for C4: removing the single present key of a one-entry map
returns its id 0. -/
theorem c4_remove_witness :
    ((((CompactIdBiMap.new : CompactIdBiMap Nat).insert 3).2.remove 3).1) = some 0 :=
  ((c4_remove (((CompactIdBiMap.new : CompactIdBiMap Nat).insert 3).2) 3).1 0 rfl).1

/-- C6: insertion round trip.  For the bidirectional map, looking the id
returned by insert back up yields the inserted key, for every state and
every key.  For the unidirectional map, whenever insert succeeds with some
id, looking that id up yields the inserted value. -/
theorem c6_insert_roundtrip {K I V : Type} [DecidableEq K] [DecidableEq I]
    [Incrementable I] :
    (∀ (s : CompactIdBiMap K) (k : K),
      (s.insert k).2.get_key (s.insert k).1 = some k) ∧
    (∀ (s : CompactIdMap I V) (v : V) (i : I) (s1 : CompactIdMap I V),
      s.insert v = some (i, s1) → s1.get i = some v) := by
  constructor
  · intro s k
    simp [CompactIdBiMap.get_key]
  · intro s v i s1 h
    rw [CompactIdMap.insert] at h
    cases hf : s.fresh_id with
    | none =>
      rw [hf] at h
      exact Option.noConfusion h
    | some p =>
      rw [hf] at h
      obtain ⟨hi, hs⟩ := Prod.mk.injEq .. ▸ (Option.some.injEq .. ▸ h)
      subst hi
      subst hs
      simp [CompactIdMap.get]

/-- Witness for C6: the unidirectional round trip at a concrete insertion
into the empty map over the bounded id type. -/
theorem c6_insert_roundtrip_witness :
    ({ keys := [(⟨0⟩, 42)], recycle_bin := [], next_new_id := ⟨1⟩ } :
        CompactIdMap U8 Nat).get ⟨0⟩ = some 42 :=
  (c6_insert_roundtrip (K := Nat) (I := U8) (V := Nat)).2
    (CompactIdMap.new : CompactIdMap U8 Nat) 42 ⟨0⟩ _ (by decide)

/-- C7: immediate LIFO reuse.  In both maps, when a removal frees an id and
the very next mutating operation is an insertion, the insertion returns that
id again, for every state: the freed id is pushed on top of the recycle bin
and the next allocation pops it. -/
theorem c7_lifo_reuse {K I V : Type} [DecidableEq K] [DecidableEq I]
    [Incrementable I] :
    (∀ (s : CompactIdBiMap K) (k k2 : K) (i : Nat),
      (s.remove k).1 = some i → ((s.remove k).2.insert k2).1 = i) ∧
    (∀ (s : CompactIdBiMap K) (j : Nat) (k2 : K),
      ((s.remove_id j).1).isSome = true → ((s.remove_id j).2.insert k2).1 = j) ∧
    (∀ (s : CompactIdMap I V) (j : I) (v : V),
      ((s.remove_id j).1).isSome = true →
        ((s.remove_id j).2.insert v).map Prod.fst = some j) := by
  refine ⟨?_, ?_, ?_⟩
  · intro s k k2 i h
    cases hl : lookupA s.ids k with
    | none => simp [CompactIdBiMap.remove, hl] at h
    | some i0 =>
      have hi : i0 = i := by
        simp [CompactIdBiMap.remove, hl] at h
        exact h
      subst hi
      have hbin : (s.remove k).2.recycle_bin = i0 :: s.recycle_bin := by
        simp [CompactIdBiMap.remove, hl]
      rw [insert_fst, get_fresh_id_of_cons _ hbin]
  · intro s j k2 h
    cases hl : lookupA s.keys j with
    | none => simp [CompactIdBiMap.remove_id, hl] at h
    | some k0 =>
      have hbin : (s.remove_id j).2.recycle_bin = j :: s.recycle_bin := by
        simp [CompactIdBiMap.remove_id, hl]
      rw [insert_fst, get_fresh_id_of_cons _ hbin]
  · intro s j v h
    cases hl : lookupA s.keys j with
    | none => simp [CompactIdMap.remove_id, hl] at h
    | some v0 =>
      have hbin : (s.remove_id j).2.recycle_bin = j :: s.recycle_bin := by
        simp [CompactIdMap.remove_id, hl]
      have hfresh : (s.remove_id j).2.fresh_id =
          some (j, { (s.remove_id j).2 with recycle_bin := s.recycle_bin }) := by
        simp [CompactIdMap.fresh_id, hbin]
      simp [CompactIdMap.insert, hfresh]

/-- Witness for C7: on a one-entry bidirectional map, removing the key and
then inserting another key reuses id 0. -/
theorem c7_lifo_reuse_witness :
    (((((CompactIdBiMap.new : CompactIdBiMap Nat).insert 3).2.remove 3).2.insert 9).1) = 0 :=
  (c7_lifo_reuse (K := Nat) (I := U8) (V := Nat)).1
    (((CompactIdBiMap.new : CompactIdBiMap Nat).insert 3).2) 3 9 0 rfl

/-- C9: the concrete end-to-end scenario of the crate's test on the
bidirectional map starting empty: ids 0 and 1 are handed out, hello is
removed freeing 0, the next insertion recycles 0, the one after that mints
the fresh id 2, and all lookups answer as recorded. -/
theorem c9_concrete_scenario :
    let s0 : CompactIdBiMap String := CompactIdBiMap.new
    let p1 := s0.insert "hello"
    let p2 := p1.2.insert "how"
    let p3 := p2.2.remove "hello"
    let p4 := p3.2.insert "are"
    let p5 := p4.2.insert "you"
    p1.1 = 0 ∧ p2.1 = 1 ∧
    p2.2.get "hello" = some 0 ∧ p2.2.get_key 0 = some "hello" ∧
    p3.1 = some 0 ∧ p3.2.get "hello" = none ∧
    p4.1 = 0 ∧ p5.1 = 2 ∧
    p5.2.get "are" = some 0 ∧ p5.2.get_key 0 = some "are" ∧
    p5.2.get "you" = some 2 := by
  decide

theorem lookupA_eraseA_of_none {α β : Type} [DecidableEq α] (m : List (α × β))
    {k x : α} (h : lookupA m x = none) : lookupA (eraseA m k) x = none := by
  by_cases hx : x = k
  · subst hx
    exact lookupA_eraseA_self m x
  · rw [lookupA_eraseA_ne m hx]
    exact h

theorem insert_char {K : Type} [DecidableEq K] (s : CompactIdBiMap K) (k : K) :
    s.insert k = (s.get_fresh_id.1,
      { s.get_fresh_id.2 with
        ids := insertA s.get_fresh_id.2.ids k s.get_fresh_id.1,
        keys := insertA s.get_fresh_id.2.keys s.get_fresh_id.1 k }) := rfl

theorem insert_empty_char {K : Type} [DecidableEq K] (s : CompactIdBiMap K)
    (k : K) (hbin : s.recycle_bin = []) :
    s.insert k = (s.next_new_id,
      { ids := insertA s.ids k s.next_new_id,
        keys := insertA s.keys s.next_new_id k,
        recycle_bin := [],
        next_new_id := (s.next_new_id + 1) % usizeSize }) := by
  rw [insert_char, get_fresh_id_of_empty s hbin]
  simp [hbin]

theorem insert_cons_char {K : Type} [DecidableEq K] (s : CompactIdBiMap K)
    (k : K) {i0 : Nat} {rest : List Nat} (hbin : s.recycle_bin = i0 :: rest) :
    s.insert k = (i0,
      { ids := insertA s.ids k i0,
        keys := insertA s.keys i0 k,
        recycle_bin := rest,
        next_new_id := s.next_new_id }) := by
  rw [insert_char, get_fresh_id_of_cons s hbin]

theorem reach_wf {K : Type} [DecidableEq K] {s : CompactIdBiMap K} {a : Nat}
    {R : List Nat} (h : Reach s a R) : a ≤ usizeSize → Wf s a R := by
  induction h with
  | empty =>
    intro _
    constructor <;> simp [CompactIdBiMap.new, nodupKeys, keysOf]
  | insert s a R k hre hnone ih =>
    intro hlt
    by_cases hbin : s.recycle_bin = []
    · rw [if_pos hbin] at hlt ⊢
      have ha : a < usizeSize := hlt
      obtain ⟨hnext, hndi, hndk, hndb, hbij, hlen, hdnl, hblt, hllt, hrlt⟩ :=
        ih (Nat.le_of_lt ha)
      have hnexta : s.next_new_id = a := by
        rw [hnext]
        exact Nat.mod_eq_of_lt ha
      have hchar := insert_empty_char s k hbin
      rw [hnexta] at hchar
      have hfst : (s.insert k).1 = a := by rw [hchar]
      have hids : (s.insert k).2.ids = insertA s.ids k a := by rw [hchar]
      have hkeys : (s.insert k).2.keys = insertA s.keys a k := by rw [hchar]
      have hbin2 : (s.insert k).2.recycle_bin = [] := by rw [hchar]
      have hnext2 : (s.insert k).2.next_new_id = (a + 1) % usizeSize := by
        rw [hchar]
      have hka : lookupA s.keys a = none := by
        cases hc : lookupA s.keys a with
        | none => rfl
        | some k0 => exact absurd (hllt a k0 hc) (lt_irrefl a)
      constructor
      · exact hnext2
      · rw [hids]
        exact nodupKeys_insertA hndi k a
      · rw [hkeys]
        exact nodupKeys_insertA hndk a k
      · rw [hbin2]
        exact List.nodup_nil
      · intro k' i'
        rw [hids, hkeys]
        by_cases hk : k' = k
        · subst hk
          rw [lookupA_insertA_self]
          by_cases hi : i' = a
          · subst hi
            rw [lookupA_insertA_self]
            simp
          · rw [lookupA_insertA_ne s.keys k' hi]
            constructor
            · intro hh
              exact absurd (Option.some.inj hh).symm hi
            · intro hh
              have hc := (hbij k' i').mpr hh
              rw [hnone] at hc
              exact Option.noConfusion hc
        · rw [lookupA_insertA_ne s.ids a hk]
          by_cases hi : i' = a
          · subst hi
            rw [lookupA_insertA_self]
            constructor
            · intro hh
              have hc := (hbij k' i').mp hh
              exact absurd (hllt i' k' hc) (lt_irrefl i')
            · intro hh
              exact absurd (Option.some.inj hh).symm hk
          · rw [lookupA_insertA_ne s.keys k hi]
            exact hbij k' i'
      · rw [hids, hkeys, length_insertA_of_none s.ids a hnone,
          length_insertA_of_none s.keys k hka, hlen]
      · intro i' hmem
        rw [hbin2] at hmem
        exact absurd hmem (List.not_mem_nil i')
      · intro i' hmem
        rw [hbin2] at hmem
        exact absurd hmem (List.not_mem_nil i')
      · intro i' k' hh
        rw [hkeys] at hh
        by_cases hi : i' = a
        · subst hi
          exact Nat.lt_succ_self i'
        · rw [lookupA_insertA_ne s.keys k hi] at hh
          exact Nat.lt_succ_of_lt (hllt i' k' hh)
      · intro i' hmem
        rw [hfst] at hmem
        rcases List.mem_cons.mp hmem with rfl | h2
        · exact Nat.lt_succ_self i'
        · exact Nat.lt_succ_of_lt (hrlt i' h2)
    · rw [if_neg hbin, Nat.add_zero] at hlt ⊢
      obtain ⟨hnext, hndi, hndk, hndb, hbij, hlen, hdnl, hblt, hllt, hrlt⟩ := ih hlt
      obtain ⟨i0, rest, hbc⟩ : ∃ i0 rest, s.recycle_bin = i0 :: rest := by
        cases hc : s.recycle_bin with
        | nil => exact absurd hc hbin
        | cons x xs => exact ⟨x, xs, rfl⟩
      have hchar := insert_cons_char s k hbc
      rw [hnext] at hchar
      have hfst : (s.insert k).1 = i0 := by rw [hchar]
      have hids : (s.insert k).2.ids = insertA s.ids k i0 := by rw [hchar]
      have hkeys : (s.insert k).2.keys = insertA s.keys i0 k := by rw [hchar]
      have hbin2 : (s.insert k).2.recycle_bin = rest := by rw [hchar]
      have hnext2 : (s.insert k).2.next_new_id = a % usizeSize := by rw [hchar]
      have hmem0 : i0 ∈ s.recycle_bin := by
        rw [hbc]
        exact List.mem_cons_self i0 rest
      have hi0nl : lookupA s.keys i0 = none := hdnl i0 hmem0
      have hi0lt : i0 < a := hblt i0 hmem0
      have hrestmem : ∀ x ∈ rest, x ∈ s.recycle_bin := by
        intro x hx
        rw [hbc]
        exact List.mem_cons_of_mem i0 hx
      have hnodup2 : i0 ∉ rest ∧ rest.Nodup := by
        rw [hbc] at hndb
        exact List.nodup_cons.mp hndb
      constructor
      · exact hnext2
      · rw [hids]
        exact nodupKeys_insertA hndi k i0
      · rw [hkeys]
        exact nodupKeys_insertA hndk i0 k
      · rw [hbin2]
        exact hnodup2.2
      · intro k' i'
        rw [hids, hkeys]
        by_cases hk : k' = k
        · subst hk
          rw [lookupA_insertA_self]
          by_cases hi : i' = i0
          · subst hi
            rw [lookupA_insertA_self]
            simp
          · rw [lookupA_insertA_ne s.keys k' hi]
            constructor
            · intro hh
              exact absurd (Option.some.inj hh).symm hi
            · intro hh
              have hc := (hbij k' i').mpr hh
              rw [hnone] at hc
              exact Option.noConfusion hc
        · rw [lookupA_insertA_ne s.ids i0 hk]
          by_cases hi : i' = i0
          · subst hi
            rw [lookupA_insertA_self]
            constructor
            · intro hh
              have hc := (hbij k' i').mp hh
              rw [hi0nl] at hc
              exact Option.noConfusion hc
            · intro hh
              exact absurd (Option.some.inj hh).symm hk
          · rw [lookupA_insertA_ne s.keys k hi]
            exact hbij k' i'
      · rw [hids, hkeys, length_insertA_of_none s.ids i0 hnone,
          length_insertA_of_none s.keys k hi0nl, hlen]
      · intro i' hmem
        rw [hbin2] at hmem
        rw [hkeys]
        have hne : i' ≠ i0 := by
          intro hc
          rw [hc] at hmem
          exact hnodup2.1 hmem
        rw [lookupA_insertA_ne s.keys k hne]
        exact hdnl i' (hrestmem i' hmem)
      · intro i' hmem
        rw [hbin2] at hmem
        exact hblt i' (hrestmem i' hmem)
      · intro i' k' hh
        rw [hkeys] at hh
        by_cases hi : i' = i0
        · subst hi
          exact hi0lt
        · rw [lookupA_insertA_ne s.keys k hi] at hh
          exact hllt i' k' hh
      · intro i' hmem
        rw [hfst] at hmem
        rcases List.mem_cons.mp hmem with rfl | h2
        · exact hi0lt
        · exact hrlt i' h2
  | remove s a R k hre ih =>
    intro hlt
    obtain ⟨hnext, hndi, hndk, hndb, hbij, hlen, hdnl, hblt, hllt, hrlt⟩ := ih hlt
    cases hl : lookupA s.ids k with
    | none =>
      have hs : (s.remove k).2 = s := by simp [CompactIdBiMap.remove, hl]
      rw [hs]
      exact ⟨hnext, hndi, hndk, hndb, hbij, hlen, hdnl, hblt, hllt, hrlt⟩
    | some i =>
      have hids : (s.remove k).2.ids = eraseA s.ids k := by
        simp [CompactIdBiMap.remove, hl]
      have hkeys : (s.remove k).2.keys = eraseA s.keys i := by
        simp [CompactIdBiMap.remove, hl]
      have hbin2 : (s.remove k).2.recycle_bin = i :: s.recycle_bin := by
        simp [CompactIdBiMap.remove, hl]
      have hnext2 : (s.remove k).2.next_new_id = a % usizeSize := by
        simp [CompactIdBiMap.remove, hl, hnext]
      have hki : lookupA s.keys i = some k := (hbij k i).mp hl
      have hilta : i < a := hllt i k hki
      have hinotbin : i ∉ s.recycle_bin := by
        intro hmem
        rw [hdnl i hmem] at hki
        exact Option.noConfusion hki
      constructor
      · exact hnext2
      · rw [hids]
        exact nodupKeys_eraseA hndi k
      · rw [hkeys]
        exact nodupKeys_eraseA hndk i
      · rw [hbin2]
        exact List.nodup_cons.mpr ⟨hinotbin, hndb⟩
      · intro k' i'
        rw [hids, hkeys]
        by_cases hk : k' = k
        · subst hk
          rw [lookupA_eraseA_self]
          by_cases hi : i' = i
          · subst hi
            rw [lookupA_eraseA_self]
            simp
          · rw [lookupA_eraseA_ne s.keys hi]
            constructor
            · intro hh
              exact Option.noConfusion hh
            · intro hh
              have hc := (hbij k' i').mpr hh
              rw [hl] at hc
              exact absurd (Option.some.inj hc).symm hi
        · rw [lookupA_eraseA_ne s.ids hk]
          by_cases hi : i' = i
          · subst hi
            rw [lookupA_eraseA_self]
            constructor
            · intro hh
              have hc := (hbij k' i').mp hh
              rw [hki] at hc
              exact absurd (Option.some.inj hc).symm hk
            · intro hh
              exact Option.noConfusion hh
          · rw [lookupA_eraseA_ne s.keys hi]
            exact hbij k' i'
      · rw [hids, hkeys]
        have h1 := length_eraseA_of_some hndi hl
        have h2 := length_eraseA_of_some hndk hki
        omega
      · intro i' hmem
        rw [hbin2] at hmem
        rw [hkeys]
        rcases List.mem_cons.mp hmem with rfl | h2
        · exact lookupA_eraseA_self s.keys i'
        · exact lookupA_eraseA_of_none s.keys (hdnl i' h2)
      · intro i' hmem
        rw [hbin2] at hmem
        rcases List.mem_cons.mp hmem with rfl | h2
        · exact hilta
        · exact hblt i' h2
      · intro i' k' hh
        rw [hkeys] at hh
        by_cases hi : i' = i
        · subst hi
          rw [lookupA_eraseA_self] at hh
          exact Option.noConfusion hh
        · rw [lookupA_eraseA_ne s.keys hi] at hh
          exact hllt i' k' hh
      · intro i' hmem
        exact hrlt i' hmem
  | remove_id s a R j hre ih =>
    intro hlt
    obtain ⟨hnext, hndi, hndk, hndb, hbij, hlen, hdnl, hblt, hllt, hrlt⟩ := ih hlt
    cases hl : lookupA s.keys j with
    | none =>
      have hs : (s.remove_id j).2 = s := by simp [CompactIdBiMap.remove_id, hl]
      rw [hs]
      exact ⟨hnext, hndi, hndk, hndb, hbij, hlen, hdnl, hblt, hllt, hrlt⟩
    | some k0 =>
      have hids : (s.remove_id j).2.ids = eraseA s.ids k0 := by
        simp [CompactIdBiMap.remove_id, hl]
      have hkeys : (s.remove_id j).2.keys = eraseA s.keys j := by
        simp [CompactIdBiMap.remove_id, hl]
      have hbin2 : (s.remove_id j).2.recycle_bin = j :: s.recycle_bin := by
        simp [CompactIdBiMap.remove_id, hl]
      have hnext2 : (s.remove_id j).2.next_new_id = a % usizeSize := by
        simp [CompactIdBiMap.remove_id, hl, hnext]
      have hik : lookupA s.ids k0 = some j := (hbij k0 j).mpr hl
      have hjlta : j < a := hllt j k0 hl
      have hjnotbin : j ∉ s.recycle_bin := by
        intro hmem
        rw [hdnl j hmem] at hl
        exact Option.noConfusion hl
      constructor
      · exact hnext2
      · rw [hids]
        exact nodupKeys_eraseA hndi k0
      · rw [hkeys]
        exact nodupKeys_eraseA hndk j
      · rw [hbin2]
        exact List.nodup_cons.mpr ⟨hjnotbin, hndb⟩
      · intro k' i'
        rw [hids, hkeys]
        by_cases hk : k' = k0
        · subst hk
          rw [lookupA_eraseA_self]
          by_cases hi : i' = j
          · subst hi
            rw [lookupA_eraseA_self]
            simp
          · rw [lookupA_eraseA_ne s.keys hi]
            constructor
            · intro hh
              exact Option.noConfusion hh
            · intro hh
              have hc := (hbij k' i').mpr hh
              rw [hik] at hc
              exact absurd (Option.some.inj hc).symm hi
        · rw [lookupA_eraseA_ne s.ids hk]
          by_cases hi : i' = j
          · subst hi
            rw [lookupA_eraseA_self]
            constructor
            · intro hh
              have hc := (hbij k' i').mp hh
              rw [hl] at hc
              exact absurd (Option.some.inj hc).symm hk
            · intro hh
              exact Option.noConfusion hh
          · rw [lookupA_eraseA_ne s.keys hi]
            exact hbij k' i'
      · rw [hids, hkeys]
        have h1 := length_eraseA_of_some hndi hik
        have h2 := length_eraseA_of_some hndk hl
        omega
      · intro i' hmem
        rw [hbin2] at hmem
        rw [hkeys]
        rcases List.mem_cons.mp hmem with rfl | h2
        · exact lookupA_eraseA_self s.keys i'
        · exact lookupA_eraseA_of_none s.keys (hdnl i' h2)
      · intro i' hmem
        rw [hbin2] at hmem
        rcases List.mem_cons.mp hmem with rfl | h2
        · exact hjlta
        · exact hblt i' h2
      · intro i' k' hh
        rw [hkeys] at hh
        by_cases hi : i' = j
        · subst hi
          rw [lookupA_eraseA_self] at hh
          exact Option.noConfusion hh
        · rw [lookupA_eraseA_ne s.keys hi] at hh
          exact hllt i' k' hh
      · intro i' hmem
        exact hrlt i' hmem

theorem insertN_bin_next :
    ∀ n : Nat, (insertN n).recycle_bin = [] ∧ (insertN n).next_new_id = n % usizeSize := by
  intro n
  induction n with
  | zero =>
    constructor
    · rfl
    · rfl
  | succ n ih =>
    have hchar := insert_empty_char (insertN n) n ih.1
    constructor
    · show ((insertN n).insert n).2.recycle_bin = []
      rw [hchar]
    · show ((insertN n).insert n).2.next_new_id = (n + 1) % usizeSize
      rw [hchar]
      show ((insertN n).next_new_id + 1) % usizeSize = (n + 1) % usizeSize
      rw [ih.2, Nat.mod_add_mod]

theorem insertN_lookup_ge : ∀ n k : Nat, n ≤ k → lookupA (insertN n).ids k = none := by
  intro n
  induction n with
  | zero =>
    intro k _
    rfl
  | succ n ih =>
    intro k hk
    have hchar := insert_empty_char (insertN n) n (insertN_bin_next n).1
    have hids : (insertN (n + 1)).ids = insertA (insertN n).ids n (insertN n).next_new_id := by
      show ((insertN n).insert n).2.ids = _
      rw [hchar]
    rw [hids, lookupA_insertA_ne _ _ (by omega : k ≠ n)]
    exact ih k (by omega)

theorem insertN_lookup_lt :
    ∀ n : Nat, n ≤ usizeSize → ∀ k : Nat, k < n → lookupA (insertN n).ids k = some k := by
  intro n
  induction n with
  | zero =>
    intro _ k hk
    omega
  | succ n ih =>
    intro hn k hk
    have hb := insertN_bin_next n
    have hchar := insert_empty_char (insertN n) n hb.1
    have hids : (insertN (n + 1)).ids = insertA (insertN n).ids n (insertN n).next_new_id := by
      show ((insertN n).insert n).2.ids = _
      rw [hchar]
    have hnval : (insertN n).next_new_id = n := by
      rw [hb.2]
      exact Nat.mod_eq_of_lt (by omega)
    by_cases hkn : k = n
    · subst hkn
      rw [hids, hnval, lookupA_insertA_self]
    · rw [hids, lookupA_insertA_ne _ _ hkn]
      exact ih (by omega) k (by omega)

theorem returnedIds_succ (n : Nat) :
    returnedIds (n + 1) = (n % usizeSize) :: returnedIds n := by
  unfold returnedIds
  rw [List.range_succ, List.map_append, List.reverse_append]
  rfl

theorem reach_insertN : ∀ n : Nat, Reach (insertN n) n (returnedIds n) := by
  intro n
  induction n with
  | zero => exact Reach.empty
  | succ n ih =>
    have hb := insertN_bin_next n
    have hstep := Reach.insert (insertN n) n (returnedIds n) n ih
      (insertN_lookup_ge n n le_rfl)
    rw [if_pos hb.1] at hstep
    have hfst : ((insertN n).insert n).1 = n % usizeSize := by
      rw [insert_empty_char (insertN n) n hb.1, hb.2]
    rw [hfst] at hstep
    rw [returnedIds_succ n]
    exact hstep

/-- C2 (amended): for every state of the bidirectional map reachable from
the empty map by public operations (insert only on absent keys), as long as
fewer than 2 ^ 64 allocations have been served from the counter (so the
usize counter has not wrapped): the forward and the backward map are exact
inverses with equal cardinality and no orphan entries, the ids in the
backward map are disjoint from the recycle bin, every id in the recycle bin
or ever returned by an allocation is strictly below next_new_id, and no
operation decreases next_new_id — for an allocating operation under the
additional proviso that it is not run with next_new_id at usize::MAX AND an
empty recycle bin, the one configuration where the wrapping increment drops
the counter to 0 (see the counterexample). -/
theorem c2_invariants {K : Type} [DecidableEq K] (s : CompactIdBiMap K)
    (a : Nat) (R : List Nat) (h : Reach s a R) (hlt : a < usizeSize) :
    (∀ (k : K) (i : Nat), lookupA s.ids k = some i ↔ lookupA s.keys i = some k) ∧
    s.ids.length = s.keys.length ∧
    (∀ i ∈ s.recycle_bin, lookupA s.keys i = none) ∧
    (∀ i ∈ s.recycle_bin, i < s.next_new_id) ∧
    (∀ i ∈ R, i < s.next_new_id) ∧
    (∀ k : K, ¬(s.next_new_id = usizeSize - 1 ∧ s.recycle_bin = []) →
      s.next_new_id ≤ (s.insert k).2.next_new_id ∧
      s.next_new_id ≤ (s.get_or_insert k).2.next_new_id) ∧
    (∀ k : K, s.next_new_id ≤ (s.remove k).2.next_new_id) ∧
    (∀ i : Nat, s.next_new_id ≤ (s.remove_id i).2.next_new_id) := by
  obtain ⟨hnext, hndi, hndk, hndb, hbij, hlen, hdnl, hblt, hllt, hrlt⟩ :=
    reach_wf h (Nat.le_of_lt hlt)
  have hnexta : s.next_new_id = a := by
    rw [hnext]
    exact Nat.mod_eq_of_lt hlt
  have hinsmono : ∀ k : K, ¬(s.next_new_id = usizeSize - 1 ∧ s.recycle_bin = []) →
      s.next_new_id ≤ (s.insert k).2.next_new_id := by
    intro k hcond
    rw [insert_snd_next_new_id]
    by_cases hbin : s.recycle_bin = []
    · have hne : s.next_new_id ≠ usizeSize - 1 := fun hc => hcond ⟨hc, hbin⟩
      rw [get_fresh_id_of_empty s hbin]
      show s.next_new_id ≤ (s.next_new_id + 1) % usizeSize
      have hup : s.next_new_id < usizeSize := by
        rw [hnexta]
        exact hlt
      have hwrap : s.next_new_id + 1 < usizeSize := by omega
      rw [Nat.mod_eq_of_lt hwrap]
      omega
    · obtain ⟨i0, rest, hbc⟩ : ∃ i0 rest, s.recycle_bin = i0 :: rest := by
        cases hc : s.recycle_bin with
        | nil => exact absurd hc hbin
        | cons x xs => exact ⟨x, xs, rfl⟩
      rw [get_fresh_id_of_cons s hbc]
  refine ⟨hbij, hlen, hdnl, ?_, ?_, ?_, ?_, ?_⟩
  · rw [hnexta]
    exact hblt
  · rw [hnexta]
    exact hrlt
  · intro k hcond
    refine ⟨hinsmono k hcond, ?_⟩
    rw [CompactIdBiMap.get_or_insert]
    cases hg : s.get k with
    | some i => exact le_refl _
    | none => exact hinsmono k hcond
  · intro k
    rw [CompactIdBiMap.remove]
    cases hl : lookupA s.ids k with
    | none => exact le_refl _
    | some i => exact le_refl _
  · intro i
    rw [CompactIdBiMap.remove_id]
    cases hl : lookupA s.keys i with
    | none => exact le_refl _
    | some k => exact le_refl _

/-- Witness for C2 at the concrete reachable one-entry state obtained by
inserting key 0 into the empty map: its forward and backward maps have
equal length. -/
theorem c2_invariants_witness :
    ((CompactIdBiMap.new : CompactIdBiMap Nat).insert 0).2.ids.length =
      ((CompactIdBiMap.new : CompactIdBiMap Nat).insert 0).2.keys.length := by
  have hr := Reach.insert (CompactIdBiMap.new : CompactIdBiMap Nat) 0 [] 0
    Reach.empty rfl
  have hone :
      (0 + if (CompactIdBiMap.new : CompactIdBiMap Nat).recycle_bin = ([] : List Nat)
        then 1 else 0) = 1 := rfl
  rw [hone] at hr
  exact (c2_invariants _ 1 _ hr (by norm_num [usizeSize])).2.1

/-- Counterexample to C2 as stated: the state reached by inserting the
pairwise distinct keys 0, ..., 2 ^ 64 - 2 into the empty map is reachable
by public operations respecting insert's precondition, its next_new_id is
usize::MAX = 2 ^ 64 - 1, and one further insert of the absent key
2 ^ 64 - 1 strictly DECREASES next_new_id (the wrapping usize increment
drops it to 0), contradicting that no operation ever decreases it. -/
theorem c2_counterexample :
    Reach (insertN (usizeSize - 1)) (usizeSize - 1) (returnedIds (usizeSize - 1)) ∧
    lookupA (insertN (usizeSize - 1)).ids (usizeSize - 1) = none ∧
    (insertN (usizeSize - 1)).next_new_id = usizeSize - 1 ∧
    ((insertN (usizeSize - 1)).insert (usizeSize - 1)).2.next_new_id = 0 ∧
    ¬ (insertN (usizeSize - 1)).next_new_id ≤
        ((insertN (usizeSize - 1)).insert (usizeSize - 1)).2.next_new_id := by
  have hsz : 2 ≤ usizeSize := by
    rw [usizeSize]
    norm_num
  have h1 : usizeSize - 1 + 1 = usizeSize := by omega
  have e1 : insertN (usizeSize - 1 + 1) =
      ((insertN (usizeSize - 1)).insert (usizeSize - 1)).2 := by
    rw [insertN]
  have hnval : (insertN (usizeSize - 1)).next_new_id = usizeSize - 1 := by
    rw [(insertN_bin_next (usizeSize - 1)).2]
    exact Nat.mod_eq_of_lt (by omega)
  have hzero :
      ((insertN (usizeSize - 1)).insert (usizeSize - 1)).2.next_new_id = 0 := by
    rw [← e1, (insertN_bin_next (usizeSize - 1 + 1)).2, h1]
    exact Nat.mod_self usizeSize
  refine ⟨reach_insertN (usizeSize - 1),
    insertN_lookup_ge (usizeSize - 1) (usizeSize - 1) le_rfl, hnval, hzero, ?_⟩
  rw [hzero, hnval]
  omega

theorem insert_fst_of_empty {K : Type} [DecidableEq K] (s : CompactIdBiMap K)
    (k : K) (hbin : s.recycle_bin = []) : (s.insert k).1 = s.next_new_id := by
  rw [insert_empty_char s k hbin]

/-- C10: the bidirectional map's id type is the fixed usize and advancing
next_new_id is native unsigned addition with no exhaustion check
(release-build wrapping semantics): on any state whose recycle bin is empty
and whose counter sits at usize::MAX = 2 ^ 64 - 1, get_fresh_id hands out
usize::MAX and wraps the counter modulo 2 ^ 64 back to 0, signalling no
failure; afterwards freshly allocated ids can collide with live ones — in
the reachable state holding the keys 0, ..., 2 ^ 64 - 1, key 0 is still
live with id 0, and the next insertion hands out id 0 again. -/
theorem c10_wrapping_counter {s : CompactIdBiMap Nat} (h1 : s.recycle_bin = [])
    (h2 : s.next_new_id = usizeSize - 1) :
    s.get_fresh_id.1 = usizeSize - 1 ∧
    s.get_fresh_id.2.next_new_id = 0 ∧
    lookupA (insertN usizeSize).ids 0 = some 0 ∧
    ((insertN usizeSize).insert usizeSize).1 = 0 := by
  have hsz : 2 ≤ usizeSize := by
    rw [usizeSize]
    norm_num
  have hchar := get_fresh_id_of_empty s h1
  have hfst : s.get_fresh_id.1 = usizeSize - 1 := by
    rw [hchar]
    exact h2
  have hsnd : s.get_fresh_id.2.next_new_id = 0 := by
    rw [hchar]
    show (s.next_new_id + 1) % usizeSize = 0
    rw [h2]
    have h3 : usizeSize - 1 + 1 = usizeSize := by omega
    rw [h3]
    exact Nat.mod_self usizeSize
  have hlive : lookupA (insertN usizeSize).ids 0 = some 0 := by
    have := insertN_lookup_lt usizeSize le_rfl 0 (by omega)
    simpa using this
  have hcol : ((insertN usizeSize).insert usizeSize).1 = 0 := by
    have hf := insert_fst_of_empty (insertN usizeSize) usizeSize
      (insertN_bin_next usizeSize).1
    rw [hf, (insertN_bin_next usizeSize).2]
    exact Nat.mod_self usizeSize
  exact ⟨hfst, hsnd, hlive, hcol⟩

/-- Witness for C10 at the concrete state with an empty map and the counter
at usize::MAX: the allocation returns usize::MAX. -/
theorem c10_wrapping_counter_witness :
    (CompactIdBiMap.get_fresh_id
      { ids := [], keys := [], recycle_bin := [], next_new_id := usizeSize - 1 } :
        Nat × CompactIdBiMap Nat).1 = usizeSize - 1 :=
  (c10_wrapping_counter rfl rfl).1

/-- C8: at allocation exhaustion — the generic id type has no successor for
the current next_new_id and the recycle bin is empty — CompactIdMap::insert
calls Option::unwrap on increment's none and so ABORTS the process
(modelled by returning none) instead of signalling a recoverable, explicit
failure to the caller as the specification requires; evaluated here at a
u8-like id type sitting at its maximum value 255. -/
theorem c8_exhaustion_aborts :
    ({ keys := [], recycle_bin := [], next_new_id := ⟨255⟩ } :
      CompactIdMap U8 Nat).insert 0 = none := rfl

theorem pair_some_inj {α β : Type} {a c : α} {b d : β}
    (h : (some (a, b) : Option (α × β)) = some (c, d)) : a = c ∧ b = d := by
  have hp := Option.some.inj h
  exact ⟨congrArg Prod.fst hp, congrArg Prod.snd hp⟩

theorem insertMany_nil {K : Type} [DecidableEq K] (s : CompactIdBiMap K) :
    s.insertMany [] = ([], s) := rfl

theorem insertMany_cons {K : Type} [DecidableEq K] (s : CompactIdBiMap K)
    (k : K) (ks : List K) :
    s.insertMany (k :: ks) =
      ((s.insert k).1 :: ((s.insert k).2.insertMany ks).1,
        ((s.insert k).2.insertMany ks).2) := rfl

theorem insertMany_nodup_bound {K : Type} [DecidableEq K] :
    ∀ (ks : List K) (s : CompactIdBiMap K) (a : Nat),
      s.recycle_bin.Nodup → (∀ i ∈ s.recycle_bin, i < a) →
      s.next_new_id = a % usizeSize →
      a + (ks.length - s.recycle_bin.length) ≤ usizeSize →
      (s.insertMany ks).1.Nodup ∧
        ∀ i ∈ (s.insertMany ks).1,
          i ∈ s.recycle_bin ∨
            (a ≤ i ∧ i < a + (ks.length - s.recycle_bin.length)) := by
  intro ks
  induction ks with
  | nil =>
    intro s a _ _ _ _
    rw [insertMany_nil]
    exact ⟨List.nodup_nil, fun i hi => absurd hi (List.not_mem_nil i)⟩
  | cons k ks ih =>
    intro s a hnd hbnd hnext hlen
    rw [insertMany_cons]
    by_cases hbin : s.recycle_bin = []
    · have hlen2 : a + (ks.length + 1) ≤ usizeSize := by
        rw [hbin] at hlen
        simp only [List.length_cons, List.length_nil, Nat.sub_zero] at hlen
        exact hlen
      have ha : a < usizeSize := by omega
      have hnexta : s.next_new_id = a := by
        rw [hnext]
        exact Nat.mod_eq_of_lt ha
      have hchar := insert_empty_char s k hbin
      rw [hnexta] at hchar
      have hfst : (s.insert k).1 = a := by rw [hchar]
      have hbin1 : (s.insert k).2.recycle_bin = [] := by rw [hchar]
      have hnext1 : (s.insert k).2.next_new_id = (a + 1) % usizeSize := by
        rw [hchar]
      have hlen1 :
          (a + 1) + (ks.length - (s.insert k).2.recycle_bin.length) ≤ usizeSize := by
        rw [hbin1]
        simp only [List.length_nil, Nat.sub_zero]
        omega
      obtain ⟨hnd1, hb1⟩ := ih (s.insert k).2 (a + 1)
        (by rw [hbin1]; exact List.nodup_nil)
        (by rw [hbin1]; exact fun i hi => absurd hi (List.not_mem_nil i))
        hnext1 hlen1
      constructor
      · rw [List.nodup_cons]
        refine ⟨?_, hnd1⟩
        intro hmem
        rcases hb1 _ hmem with h1 | h2
        · rw [hbin1] at h1
          exact List.not_mem_nil _ h1
        · rw [hfst] at h2
          omega
      · intro i hi
        rcases List.mem_cons.mp hi with rfl | h2
        · right
          rw [hfst, hbin]
          simp only [List.length_cons, List.length_nil, Nat.sub_zero]
          omega
        · rcases hb1 i h2 with h3 | h4
          · rw [hbin1] at h3
            exact absurd h3 (List.not_mem_nil i)
          · right
            rw [hbin1] at h4
            simp only [List.length_nil, Nat.sub_zero] at h4
            rw [hbin]
            simp only [List.length_cons, List.length_nil, Nat.sub_zero]
            omega
    · obtain ⟨i0, rest, hbc⟩ : ∃ i0 rest, s.recycle_bin = i0 :: rest := by
        cases hc : s.recycle_bin with
        | nil => exact absurd hc hbin
        | cons x xs => exact ⟨x, xs, rfl⟩
      have hchar := insert_cons_char s k hbc
      have hfst : (s.insert k).1 = i0 := by rw [hchar]
      have hbin1 : (s.insert k).2.recycle_bin = rest := by rw [hchar]
      have hnext1 : (s.insert k).2.next_new_id = a % usizeSize := by
        rw [hchar]
        exact hnext
      have hmem0 : i0 ∈ s.recycle_bin := by
        rw [hbc]
        exact List.mem_cons_self i0 rest
      have hi0lt : i0 < a := hbnd i0 hmem0
      have hnd2 : i0 ∉ rest ∧ rest.Nodup := by
        rw [hbc] at hnd
        exact List.nodup_cons.mp hnd
      have hlen1 :
          a + (ks.length - (s.insert k).2.recycle_bin.length) ≤ usizeSize := by
        rw [hbin1]
        rw [hbc] at hlen
        simp only [List.length_cons] at hlen
        omega
      obtain ⟨hnd1, hb1⟩ := ih (s.insert k).2 a
        (by rw [hbin1]; exact hnd2.2)
        (by
          rw [hbin1]
          intro i hi
          exact hbnd i (by rw [hbc]; exact List.mem_cons_of_mem i0 hi))
        hnext1 hlen1
      constructor
      · rw [List.nodup_cons, hfst]
        refine ⟨?_, hnd1⟩
        intro hmem
        rcases hb1 _ hmem with h1 | h2
        · rw [hbin1] at h1
          exact hnd2.1 h1
        · omega
      · intro i hi
        rcases List.mem_cons.mp hi with rfl | h2
        · left
          rw [hfst]
          exact hmem0
        · rcases hb1 i h2 with h3 | h4
          · left
            rw [hbin1] at h3
            rw [hbc]
            exact List.mem_cons_of_mem i0 h3
          · right
            rw [hbin1] at h4
            rw [hbc]
            simp only [List.length_cons] at h4 ⊢
            omega

theorem uni_fresh_cons {I V : Type} [DecidableEq I] [Incrementable I]
    (s : CompactIdMap I V) {i0 : I} {rest : List I}
    (hbin : s.recycle_bin = i0 :: rest) :
    s.fresh_id = some (i0, { s with recycle_bin := rest }) := by
  simp [CompactIdMap.fresh_id, hbin]

theorem uni_fresh_empty {I V : Type} [DecidableEq I] [Incrementable I]
    (s : CompactIdMap I V) {t : I} (hbin : s.recycle_bin = [])
    (hinc : Incrementable.increment s.next_new_id = some t) :
    s.fresh_id = some (s.next_new_id, { s with next_new_id := t }) := by
  simp [CompactIdMap.fresh_id, hbin, hinc]

theorem uni_insert_abort {I V : Type} [DecidableEq I] [Incrementable I]
    (s : CompactIdMap I V) (v : V) (hbin : s.recycle_bin = [])
    (hinc : Incrementable.increment s.next_new_id = none) : s.insert v = none := by
  simp [CompactIdMap.insert, CompactIdMap.fresh_id, hbin, hinc]

theorem uni_insert_cons {I V : Type} [DecidableEq I] [Incrementable I]
    (s : CompactIdMap I V) (v : V) {i0 : I} {rest : List I}
    (hbin : s.recycle_bin = i0 :: rest) :
    s.insert v = some (i0,
      { keys := insertA s.keys i0 v, recycle_bin := rest,
        next_new_id := s.next_new_id }) := by
  rw [CompactIdMap.insert, uni_fresh_cons s hbin]

theorem uni_insert_empty {I V : Type} [DecidableEq I] [Incrementable I]
    (s : CompactIdMap I V) (v : V) {t : I} (hbin : s.recycle_bin = [])
    (hinc : Incrementable.increment s.next_new_id = some t) :
    s.insert v = some (s.next_new_id,
      { keys := insertA s.keys s.next_new_id v, recycle_bin := s.recycle_bin,
        next_new_id := t }) := by
  rw [CompactIdMap.insert, uni_fresh_empty s hbin hinc]

theorem uniReach_uniWf {I V : Type} [DecidableEq I] [Incrementable I] [Inhabited I]
    (rank : I → Nat)
    (hrank : ∀ x y : I, Incrementable.increment x = some y → rank x < rank y)
    {s : CompactIdMap I V} (h : UniReach s) : UniWf rank s := by
  induction h with
  | empty =>
    constructor <;> simp [CompactIdMap.new]
  | insert s v i s1 hre hins ih =>
    obtain ⟨hnd, hblt, hbnl, hllt⟩ := ih
    by_cases hbin : s.recycle_bin = []
    · cases hinc : Incrementable.increment s.next_new_id with
      | none =>
        rw [uni_insert_abort s v hbin hinc] at hins
        exact Option.noConfusion hins
      | some t =>
        rw [uni_insert_empty s v hbin hinc] at hins
        obtain ⟨hi, hs1⟩ := pair_some_inj hins
        subst hi
        subst hs1
        refine ⟨?_, ?_, ?_, ?_⟩
        · show s.recycle_bin.Nodup
          exact hnd
        · show ∀ j ∈ s.recycle_bin, rank j < rank t
          intro j hj
          rw [hbin] at hj
          exact absurd hj (List.not_mem_nil j)
        · show ∀ j ∈ s.recycle_bin, lookupA (insertA s.keys s.next_new_id v) j = none
          intro j hj
          rw [hbin] at hj
          exact absurd hj (List.not_mem_nil j)
        · show ∀ (j : I) (w : V),
            lookupA (insertA s.keys s.next_new_id v) j = some w → rank j < rank t
          intro j w hw
          by_cases hj : j = s.next_new_id
          · subst hj
            exact hrank _ _ hinc
          · rw [lookupA_insertA_ne s.keys v hj] at hw
            exact lt_trans (hllt j w hw) (hrank _ _ hinc)
    · obtain ⟨i0, rest, hbc⟩ : ∃ i0 rest, s.recycle_bin = i0 :: rest := by
        cases hc : s.recycle_bin with
        | nil => exact absurd hc hbin
        | cons x xs => exact ⟨x, xs, rfl⟩
      rw [uni_insert_cons s v hbc] at hins
      obtain ⟨hi, hs1⟩ := pair_some_inj hins
      subst hi
      subst hs1
      have hnd2 : i0 ∉ rest ∧ rest.Nodup := by
        rw [hbc] at hnd
        exact List.nodup_cons.mp hnd
      have hm0 : i0 ∈ s.recycle_bin := by
        rw [hbc]
        exact List.mem_cons_self i0 rest
      refine ⟨?_, ?_, ?_, ?_⟩
      · show rest.Nodup
        exact hnd2.2
      · show ∀ j ∈ rest, rank j < rank s.next_new_id
        intro j hj
        exact hblt j (by rw [hbc]; exact List.mem_cons_of_mem i0 hj)
      · show ∀ j ∈ rest, lookupA (insertA s.keys i0 v) j = none
        intro j hj
        have hne : j ≠ i0 := fun hc => hnd2.1 (hc ▸ hj)
        rw [lookupA_insertA_ne s.keys v hne]
        exact hbnl j (by rw [hbc]; exact List.mem_cons_of_mem i0 hj)
      · show ∀ (j : I) (w : V),
          lookupA (insertA s.keys i0 v) j = some w → rank j < rank s.next_new_id
        intro j w hw
        by_cases hj : j = i0
        · subst hj
          exact hblt j hm0
        · rw [lookupA_insertA_ne s.keys v hj] at hw
          exact hllt j w hw
  | remove_id s i hre ih =>
    obtain ⟨hnd, hblt, hbnl, hllt⟩ := ih
    cases hl : lookupA s.keys i with
    | none =>
      have hs : (s.remove_id i).2 = s := by simp [CompactIdMap.remove_id, hl]
      rw [hs]
      exact ⟨hnd, hblt, hbnl, hllt⟩
    | some v0 =>
      have hkeys : (s.remove_id i).2.keys = eraseA s.keys i := by
        simp [CompactIdMap.remove_id, hl]
      have hbin2 : (s.remove_id i).2.recycle_bin = i :: s.recycle_bin := by
        simp [CompactIdMap.remove_id, hl]
      have hnext2 : (s.remove_id i).2.next_new_id = s.next_new_id := by
        simp [CompactIdMap.remove_id, hl]
      have hnotbin : i ∉ s.recycle_bin := by
        intro hmem
        rw [hbnl i hmem] at hl
        exact Option.noConfusion hl
      refine ⟨?_, ?_, ?_, ?_⟩
      · rw [hbin2]
        exact List.nodup_cons.mpr ⟨hnotbin, hnd⟩
      · intro j hj
        rw [hbin2] at hj
        rw [hnext2]
        rcases List.mem_cons.mp hj with rfl | h2
        · exact hllt j v0 hl
        · exact hblt j h2
      · intro j hj
        rw [hbin2] at hj
        rw [hkeys]
        rcases List.mem_cons.mp hj with rfl | h2
        · exact lookupA_eraseA_self s.keys j
        · exact lookupA_eraseA_of_none s.keys (hbnl j h2)
      · intro j w hw
        rw [hkeys] at hw
        rw [hnext2]
        by_cases hj : j = i
        · subst hj
          rw [lookupA_eraseA_self] at hw
          exact Option.noConfusion hw
        · rw [lookupA_eraseA_ne s.keys hj] at hw
          exact hllt j w hw
  | mutate s i v w hre hl ih =>
    obtain ⟨hnd, hblt, hbnl, hllt⟩ := ih
    refine ⟨?_, ?_, ?_, ?_⟩
    · show s.recycle_bin.Nodup
      exact hnd
    · show ∀ j ∈ s.recycle_bin, rank j < rank s.next_new_id
      exact hblt
    · show ∀ j ∈ s.recycle_bin, lookupA (insertA s.keys i v) j = none
      intro j hj
      have hne : j ≠ i := by
        intro hc
        rw [hc] at hj
        rw [hbnl i hj] at hl
        exact Option.noConfusion hl
      rw [lookupA_insertA_ne s.keys v hne]
      exact hbnl j hj
    · show ∀ (j : I) (u : V),
        lookupA (insertA s.keys i v) j = some u → rank j < rank s.next_new_id
      intro j u hu
      by_cases hj : j = i
      · subst hj
        exact hllt j w hl
      · rw [lookupA_insertA_ne s.keys v hj] at hu
        exact hllt j u hu

theorem uniInsertMany_nil {I V : Type} [DecidableEq I] [Incrementable I]
    (s : CompactIdMap I V) : s.insertMany ([] : List V) = some ([], s) := rfl

theorem uniInsertMany_cons_none {I V : Type} [DecidableEq I] [Incrementable I]
    {s : CompactIdMap I V} {v : V} (vs : List V) {i : I} {s1 : CompactIdMap I V}
    (h : s.insert v = some (i, s1)) (hrest : s1.insertMany vs = none) :
    s.insertMany (v :: vs) = none := by
  simp [CompactIdMap.insertMany, h, hrest]

theorem uniInsertMany_cons_abort {I V : Type} [DecidableEq I] [Incrementable I]
    {s : CompactIdMap I V} {v : V} (vs : List V) (h : s.insert v = none) :
    s.insertMany (v :: vs) = none := by
  simp [CompactIdMap.insertMany, h]

theorem uniInsertMany_cons_char {I V : Type} [DecidableEq I] [Incrementable I]
    {s : CompactIdMap I V} {v : V} (vs : List V) {i : I} {s1 : CompactIdMap I V}
    {is3 : List I} {s3 : CompactIdMap I V}
    (h : s.insert v = some (i, s1)) (hrest : s1.insertMany vs = some (is3, s3)) :
    s.insertMany (v :: vs) = some (i :: is3, s3) := by
  simp [CompactIdMap.insertMany, h, hrest]

theorem uniInsertMany_nodup {I V : Type} [DecidableEq I] [Incrementable I]
    (rank : I → Nat)
    (hrank : ∀ x y : I, Incrementable.increment x = some y → rank x < rank y) :
    ∀ (vs : List V) (s : CompactIdMap I V),
      s.recycle_bin.Nodup → (∀ i ∈ s.recycle_bin, rank i < rank s.next_new_id) →
      ∀ (is2 : List I) (s2 : CompactIdMap I V), s.insertMany vs = some (is2, s2) →
        is2.Nodup ∧ ∀ i ∈ is2, i ∈ s.recycle_bin ∨ rank s.next_new_id ≤ rank i := by
  intro vs
  induction vs with
  | nil =>
    intro s _ _ is2 s2 hins
    rw [uniInsertMany_nil] at hins
    obtain ⟨h1, h2⟩ := pair_some_inj hins
    subst h1
    exact ⟨List.nodup_nil, fun i hi => absurd hi (List.not_mem_nil i)⟩
  | cons v vs ih =>
    intro s hnd hblt is2 s2 hins
    cases hv : s.insert v with
    | none =>
      rw [uniInsertMany_cons_abort vs hv] at hins
      exact Option.noConfusion hins
    | some p =>
      obtain ⟨i1, s1⟩ := p
      cases hrest : s1.insertMany vs with
      | none =>
        rw [uniInsertMany_cons_none vs hv hrest] at hins
        exact Option.noConfusion hins
      | some q =>
        obtain ⟨is3, s3⟩ := q
        rw [uniInsertMany_cons_char vs hv hrest] at hins
        obtain ⟨h1, h2⟩ := pair_some_inj hins
        subst h1
        subst h2
        by_cases hbin : s.recycle_bin = []
        · cases hinc : Incrementable.increment s.next_new_id with
          | none =>
            rw [uni_insert_abort s v hbin hinc] at hv
            exact Option.noConfusion hv
          | some t =>
            rw [uni_insert_empty s v hbin hinc] at hv
            obtain ⟨hi1, hs1⟩ := pair_some_inj hv
            have hs1bin : s1.recycle_bin = [] := by
              rw [← hs1]
              exact hbin
            have hs1next : s1.next_new_id = t := by
              rw [← hs1]
            obtain ⟨hnd3, hb3⟩ := ih s1 (by rw [hs1bin]; exact List.nodup_nil)
              (by
                rw [hs1bin]
                intro j hj
                exact absurd hj (List.not_mem_nil j)) is3 s3 hrest
            constructor
            · rw [List.nodup_cons]
              refine ⟨?_, hnd3⟩
              intro hmem
              rcases hb3 _ hmem with hA | hB
              · rw [hs1bin] at hA
                exact List.not_mem_nil _ hA
              · rw [hs1next] at hB
                rw [← hi1] at hB
                have hC := hrank _ _ hinc
                omega
            · intro j hj
              rcases List.mem_cons.mp hj with rfl | h2
              · right
                rw [← hi1]
              · rcases hb3 j h2 with hA | hB
                · rw [hs1bin] at hA
                  exact absurd hA (List.not_mem_nil j)
                · right
                  rw [hs1next] at hB
                  have hC := hrank _ _ hinc
                  omega
        · obtain ⟨i0, rest, hbc⟩ : ∃ i0 rest, s.recycle_bin = i0 :: rest := by
            cases hc : s.recycle_bin with
            | nil => exact absurd hc hbin
            | cons x xs => exact ⟨x, xs, rfl⟩
          rw [uni_insert_cons s v hbc] at hv
          obtain ⟨hi1, hs1⟩ := pair_some_inj hv
          have hs1bin : s1.recycle_bin = rest := by
            rw [← hs1]
          have hs1next : s1.next_new_id = s.next_new_id := by
            rw [← hs1]
          have hnd2 : i0 ∉ rest ∧ rest.Nodup := by
            rw [hbc] at hnd
            exact List.nodup_cons.mp hnd
          have hm0 : i0 ∈ s.recycle_bin := by
            rw [hbc]
            exact List.mem_cons_self i0 rest
          obtain ⟨hnd3, hb3⟩ := ih s1 (by rw [hs1bin]; exact hnd2.2)
            (by
              rw [hs1bin, hs1next]
              intro j hj
              exact hblt j (by rw [hbc]; exact List.mem_cons_of_mem i0 hj)) is3 s3 hrest
          constructor
          · rw [List.nodup_cons]
            refine ⟨?_, hnd3⟩
            intro hmem
            rcases hb3 _ hmem with hA | hB
            · rw [hs1bin] at hA
              rw [← hi1] at hA
              exact hnd2.1 hA
            · rw [hs1next] at hB
              rw [← hi1] at hB
              have hC := hblt i0 hm0
              omega
          · intro j hj
            rcases List.mem_cons.mp hj with rfl | h2
            · left
              rw [← hi1]
              exact hm0
            · rcases hb3 j h2 with hA | hB
              · left
                rw [hs1bin] at hA
                rw [hbc]
                exact List.mem_cons_of_mem i0 hA
              · right
                rw [hs1next] at hB
                exact hB

theorem u8_increment_lt (x y : U8) (h : Incrementable.increment x = some y) :
    x.val < y.val := by
  have he : Incrementable.increment x =
      (if x.val + 1 ≤ 255 then some (⟨x.val + 1⟩ : U8) else none) := rfl
  rw [he] at h
  by_cases hle : x.val + 1 ≤ 255
  · rw [if_pos hle] at h
    have hv : y = ⟨x.val + 1⟩ := (Option.some.inj h).symm
    rw [hv]
    exact Nat.lt_succ_self x.val
  · rw [if_neg hle] at h
    exact Option.noConfusion h

/-- C5 (amended): starting from any reachable state, a run of insert calls
with no intervening removal returns pairwise distinct ids — for the
bidirectional map provided the total number of counter allocations stays
within the 2 ^ 64 usize values, counting the allocations of the reachable
history plus only those inserts of the run actually served from the counter
(the run length minus the recycle-bin entries available to it), since ids
start repeating once the wrapped counter is used again (see the
counterexample); get_or_insert on an absent key is that same insertion.
For the unidirectional map every successful run returns pairwise distinct
ids whenever the id type's increment is strictly increasing along some rank
measure, which the spec's totally ordered incrementable handle contract
provides. -/
theorem c5_unique_ids {K I V : Type} [DecidableEq K] [DecidableEq I]
    [Incrementable I] [Inhabited I] (rank : I → Nat)
    (hrank : ∀ x y : I, Incrementable.increment x = some y → rank x < rank y) :
    (∀ (s : CompactIdBiMap K) (a : Nat) (R : List Nat), Reach s a R →
      ∀ ks : List K, a + (ks.length - s.recycle_bin.length) ≤ usizeSize →
      (s.insertMany ks).1.Nodup) ∧
    (∀ (s : CompactIdBiMap K) (k : K), s.get k = none →
      s.get_or_insert k = s.insert k) ∧
    (∀ s : CompactIdMap I V, UniReach s →
      ∀ (vs : List V) (is2 : List I) (s2 : CompactIdMap I V),
        s.insertMany vs = some (is2, s2) → is2.Nodup) := by
  refine ⟨?_, ?_, ?_⟩
  · intro s a R hre ks hlen
    have ha : a ≤ usizeSize := by omega
    obtain ⟨hnext, hndi, hndk, hndb, hbij, hlenq, hdnl, hblt, hllt, hrlt⟩ :=
      reach_wf hre ha
    exact (insertMany_nodup_bound ks s a hndb hblt hnext hlen).1
  · intro s k hg
    rw [CompactIdBiMap.get] at hg
    simp [CompactIdBiMap.get_or_insert, CompactIdBiMap.get, hg]
  · intro s hre vs is2 s2 hins
    obtain ⟨hnd, hblt, hbnl, hllt⟩ := uniReach_uniWf rank hrank hre
    exact (uniInsertMany_nodup rank hrank vs s hnd hblt is2 s2 hins).1

/-- Witness for C5 at a run of three inserts from the empty bidirectional
map: the returned ids have no duplicate. -/
theorem c5_unique_ids_witness :
    ((CompactIdBiMap.new : CompactIdBiMap Nat).insertMany [5, 6, 7]).1.Nodup :=
  (c5_unique_ids (K := Nat) (I := U8) (V := Nat) U8.val u8_increment_lt).1
    CompactIdBiMap.new 0 [] Reach.empty [5, 6, 7]
    (by norm_num [usizeSize, CompactIdBiMap.new])

/-- Counterexample to C5 as stated (with no bound on the length of the
run): from the empty — hence reachable — bidirectional map, the run
inserting the 2 ^ 64 + 1 pairwise distinct absent keys 0, ..., 2 ^ 64
is reachable and the ghost list of all ids returned by its allocations,
which runs 0, 1, 2, ... and wraps at usize::MAX, contains 0 twice: the
returned ids are NOT pairwise distinct. -/
theorem c5_counterexample :
    Reach (insertN (usizeSize + 1)) (usizeSize + 1) (returnedIds (usizeSize + 1)) ∧
    ¬ (returnedIds (usizeSize + 1)).Nodup := by
  refine ⟨reach_insertN (usizeSize + 1), ?_⟩
  intro hnd
  rw [returnedIds, List.nodup_reverse, List.range_succ, List.map_append] at hnd
  obtain ⟨h1, h2, hdisj⟩ := List.nodup_append.mp hnd
  have hz1 : (0 : Nat) ∈ (List.range usizeSize).map (fun i => i % usizeSize) := by
    refine List.mem_map.mpr ⟨0, ?_, ?_⟩
    · refine List.mem_range.mpr ?_
      rw [usizeSize]
      positivity
    · exact Nat.zero_mod usizeSize
  have hz2 : (0 : Nat) ∈ ([usizeSize].map (fun i => i % usizeSize)) := by
    have hm : usizeSize % usizeSize = 0 := Nat.mod_self usizeSize
    simp [hm]
  exact hdisj hz1 hz2

end CompactIds
